import Mathlib

/-!
Verification of the CKY chart parser (`hw3_parser.py`, class `CKYParser`).

The embedding translates the parser's data and operations:
* `Symb` models the symbol universe: nltk `Nonterminal` objects (`Symb.nt`)
  and terminal word strings (`Symb.tm`); the two kinds never compare equal,
  exactly as in the source where a `Nonterminal` never equals a `str`.
* `Production` models `nltk.Production` (an lhs symbol and an rhs list).
* `Grammar` models the `nltk.CFG` held by `CKYParser`: its production list
  (in declaration order, duplicates allowed) and its start symbol.
  `Grammar.productionsWithRhsHead` models `grammar.productions(rhs=x)`,
  which in nltk filters by the FIRST item of the right-hand side.
* `PTree` models `nltk.Tree` values as built by the parser (a node label
  with children that are trees or bare token strings).
* The table-filling loops of `parse_tokenized_sentence` are embedded as
  explicit state-passing folds over a `Table` (`fillK`, `fillI`, `fillJ`,
  `buildTable`), mirroring the Python loops statement by statement.
-/

inductive Symb where
  | nt (s : String)
  | tm (s : String)
deriving DecidableEq, Repr

def Symb.isNT : Symb → Bool
  | .nt _ => true
  | .tm _ => false

structure Production where
  lhs : Symb
  rhs : List Symb
deriving DecidableEq, Repr

structure Grammar where
  productions : List Production
  start : Symb
deriving DecidableEq, Repr

/-- `grammar.productions(rhs=x)` in nltk: the productions whose right-hand
side is nonempty and whose FIRST right-hand-side item equals `x`,
in declaration order. -/
def Grammar.productionsWithRhsHead (g : Grammar) (x : Symb) : List Production :=
  g.productions.filter (fun p => decide (p.rhs.head? = some x))

/-- Parse trees as built by the parser: `nltk.Tree(node, children)` where a
child is either a subtree or a bare token string (`PTree.leaf`). -/
inductive PTree where
  | leaf (w : String)
  | node (label : Symb) (children : List PTree)

mutual
def PTree.beq : PTree → PTree → Bool
  | .leaf w, .leaf w' => w == w'
  | .node a cs, .node a' cs' => a == a' && beqPTreeList cs cs'
  | _, _ => false

def beqPTreeList : List PTree → List PTree → Bool
  | [], [] => true
  | t :: ts, t' :: ts' => PTree.beq t t' && beqPTreeList ts ts'
  | _, _ => false
end

mutual
theorem PTree.beq_iff : ∀ a b : PTree, PTree.beq a b = true ↔ a = b
  | .leaf w, .leaf w' => by simp [PTree.beq]
  | .leaf _, .node _ _ => by simp [PTree.beq]
  | .node _ _, .leaf _ => by simp [PTree.beq]
  | .node a cs, .node a' cs' => by
      simp [PTree.beq, beqPTreeList_iff cs cs']

theorem beqPTreeList_iff : ∀ l l' : List PTree, beqPTreeList l l' = true ↔ l = l'
  | [], [] => by simp [beqPTreeList]
  | [], _ :: _ => by simp [beqPTreeList]
  | _ :: _, [] => by simp [beqPTreeList]
  | t :: ts, t' :: ts' => by
      simp [beqPTreeList, PTree.beq_iff t t', beqPTreeList_iff ts ts']
end

instance : DecidableEq PTree := fun a b => decidable_of_iff _ (PTree.beq_iff a b)

/-- `tree.label()`.  The parser only ever calls it on `Tree` nodes; on a bare
token we return the terminal symbol of that token (which never equals a
nonterminal, so it can never spuriously match a production symbol). -/
def PTree.labelOf : PTree → Symb
  | .leaf w => .tm w
  | .node l _ => l

mutual
/-- Left-to-right concatenation of the leaf tokens of a tree. -/
def PTree.yield : PTree → List String
  | .leaf w => [w]
  | .node _ cs => yieldList cs

def yieldList : List PTree → List String
  | [] => []
  | t :: ts => t.yield ++ yieldList ts
end

mutual
/-- Soundness of a tree with respect to a grammar: every internal node's
label together with its children's labels (a bare token child contributing
its terminal symbol) is an actual production of the grammar. -/
def treeSoundB (g : Grammar) : PTree → Bool
  | .leaf _ => true
  | .node a cs =>
      decide (Production.mk a (cs.map PTree.labelOf) ∈ g.productions) && treeSoundList g cs

def treeSoundList (g : Grammar) : List PTree → Bool
  | [] => true
  | t :: ts => treeSoundB g t && treeSoundList g ts
end

/-- A production is in Chomsky Normal Form: a nonterminal expanding either
to a single terminal or to two nonterminals. -/
def Production.cnfOk : Production → Bool
  | ⟨l, r⟩ =>
      l.isNT && (match r with
        | [Symb.tm _] => true
        | [Symb.nt _, Symb.nt _] => true
        | _ => false)

/-- The grammar is in CNF and its start symbol is a nonterminal. -/
def Grammar.cnfCheck (g : Grammar) : Bool :=
  g.start.isNT && g.productions.all Production.cnfOk

/-- Helper for `dedupFirst`: drop elements already seen. -/
def dedupFirstAux {α : Type} [DecidableEq α] (seen : List α) : List α → List α
  | [] => []
  | a :: l => if a ∈ seen then dedupFirstAux seen l else a :: dedupFirstAux (a :: seen) l

/-- Deduplication keeping the first occurrence of each element; models
collecting values into a Python `set` (each value kept once) followed by
iteration in a fixed order. -/
def dedupFirst {α : Type} [DecidableEq α] (l : List α) : List α :=
  dedupFirstAux [] l

/-- `CKYParser.__calculate_diagonal_cell`: one tree `A → word` per distinct
left-hand side of a production whose rhs starts with (hence, for a unary
production, is exactly) the terminal `word`. -/
def calculateDiagonalCell (g : Grammar) (current_word : String) : List PTree :=
  let relevant_productions := g.productionsWithRhsHead (Symb.tm current_word)
  let productions_lhs := dedupFirst (relevant_productions.map Production.lhs)
  productions_lhs.map (fun nonterminal => PTree.node nonterminal [PTree.leaf current_word])

/-- `CKYParser.__get_productions_with_rhs`: all productions whose rhs has
`first_rhs` as its first item and contains `second_rhs` anywhere. -/
def getProductionsWithRhs (g : Grammar) (first_rhs second_rhs : Symb) : List Production :=
  let productions_with_first_rhs := g.productionsWithRhsHead first_rhs
  productions_with_first_rhs.filter (fun production => decide (second_rhs ∈ production.rhs))

/-- The body of `__calculate_intermediate_cell` given the contents of the
two source cells: for every pair of subtrees, one new tree per distinct
left-hand side returned by `__get_productions_with_rhs`. -/
def combineCells (g : Grammar) (first_list second_list : List PTree) : List PTree :=
  first_list.flatMap (fun first_list_item =>
    second_list.flatMap (fun second_list_item =>
      (dedupFirst ((getProductionsWithRhs g first_list_item.labelOf
          second_list_item.labelOf).map Production.lhs)).map
        (fun nonterminal => PTree.node nonterminal [first_list_item, second_list_item])))

/-- The CKY table: cell `(i, j)` holds a list of subtrees. -/
abbrev Table := Nat → Nat → List PTree

/-- `table[i][j] = v`. -/
def updTable (t : Table) (i j : Nat) (v : List PTree) : Table :=
  fun i' j' => if i' = i ∧ j' = j then v else t i' j'

/-- `CKYParser.__calculate_intermediate_cell(table, i, j, k)`. -/
def calculateIntermediateCell (g : Grammar) (table : Table) (i j k : Nat) : List PTree :=
  combineCells g (table i k) (table k j)

/-- The inner `for k in range(i + 1, j)` loop of `parse_tokenized_sentence`:
`table[i][j] += self.__calculate_intermediate_cell(table, i, j, k)`. -/
def fillK (g : Grammar) (i j : Nat) (t : Table) (ks : List Nat) : Table :=
  ks.foldl (fun t k => updTable t i j (t i j ++ calculateIntermediateCell g t i j k)) t

/-- The `for i in range(j - 1, -1, -1)` loop of `parse_tokenized_sentence`. -/
def fillI (g : Grammar) (j : Nat) (t : Table) (il : List Nat) : Table :=
  il.foldl (fun t i => fillK g i j t (List.range' (i + 1) (j - (i + 1)))) t

/-- One iteration of the outer `for j in range(1, width)` loop: assign the
diagonal cell `table[j-1][j]`, then run the downward `i` loop. -/
def fillJ (g : Grammar) (tokenized_sentence : List String) (t : Table) (j : Nat) : Table :=
  fillI g j
    (updTable t (j - 1) j (calculateDiagonalCell g (tokenized_sentence.getD (j - 1) "")))
    (List.range j).reverse

/-- The fully filled CKY table of `parse_tokenized_sentence` (initial cells
all empty, then the outer loop over `j = 1 .. n`). -/
def buildTable (g : Grammar) (tokenized_sentence : List String) : Table :=
  (List.range' 1 tokenized_sentence.length).foldl (fillJ g tokenized_sentence) (fun _ _ => [])

/-- `CKYParser.parse_tokenized_sentence`: fill the table, read the top-right
cell `table[0][width-1]`, and keep the entries labeled with the start symbol. -/
def parse_tokenized_sentence (g : Grammar) (tokenized_sentence : List String) : List PTree :=
  let width := tokenized_sentence.length + 1
  let table := buildTable g tokenized_sentence
  let top_level_entries := table 0 (width - 1)
  top_level_entries.filter (fun entry => decide (entry.labelOf = g.start))

/-! ## A recursive closed form for the table cells

`cellFuel`/`cell` give the contents of cell `(i, j)` of the completed table
as a recursion over span widths; `buildTable_eq_cell` below proves that the
imperative fill computes exactly these values. -/

def cellFuel (g : Grammar) (toks : List String) : Nat → Nat → Nat → List PTree
  | 0, _, _ => []
  | d + 1, i, j =>
      if i + 1 = j then calculateDiagonalCell g (toks.getD i "")
      else
        (List.range' (i + 1) (j - (i + 1))).flatMap
          (fun k => combineCells g (cellFuel g toks d i k) (cellFuel g toks d k j))

def cell (g : Grammar) (toks : List String) (i j : Nat) : List PTree :=
  cellFuel g toks (j - i) i j

lemma cellFuel_nil_of_le (g : Grammar) (toks : List String) (d i j : Nat) (h : j ≤ i) :
    cellFuel g toks d i j = [] := by
  cases d with
  | zero => rfl
  | succ d =>
      simp only [cellFuel]
      rw [if_neg (by omega)]
      have : j - (i + 1) = 0 := by omega
      simp [this]

lemma cellFuel_mono (g : Grammar) (toks : List String) :
    ∀ d d' i j, j - i ≤ d → j - i ≤ d' →
      cellFuel g toks d i j = cellFuel g toks d' i j := by
  intro d
  induction d with
  | zero =>
      intro d' i j h _
      rw [cellFuel_nil_of_le g toks 0 i j (by omega), cellFuel_nil_of_le g toks d' i j (by omega)]
  | succ d ih =>
      intro d' i j h h'
      by_cases hij : j ≤ i
      · rw [cellFuel_nil_of_le g toks _ i j hij, cellFuel_nil_of_le g toks d' i j hij]
      · obtain ⟨d'', rfl⟩ : ∃ d'', d' = d'' + 1 := by
          cases d' with
          | zero => omega
          | succ d'' => exact ⟨d'', rfl⟩
        simp only [cellFuel]
        by_cases hdiag : i + 1 = j
        · rw [if_pos hdiag, if_pos hdiag]
        · rw [if_neg hdiag, if_neg hdiag]
          apply List.flatMap_congr
          intro k hk
          rw [List.mem_range'_1] at hk
          rw [ih d'' i k (by omega) (by omega), ih d'' k j (by omega) (by omega)]

/-- Unfolding equation for `cell` that recurses on smaller spans. -/
lemma cell_eq (g : Grammar) (toks : List String) (i j : Nat) :
    cell g toks i j =
      if i + 1 = j then calculateDiagonalCell g (toks.getD i "")
      else
        (List.range' (i + 1) (j - (i + 1))).flatMap
          (fun k => combineCells g (cell g toks i k) (cell g toks k j)) := by
  by_cases hij : j ≤ i
  · rw [cell, cellFuel_nil_of_le g toks _ i j hij]
    rw [if_neg (by omega)]
    have : j - (i + 1) = 0 := by omega
    simp [this]
  · have hji : i < j := by omega
    obtain ⟨d, hd⟩ : ∃ d, j - i = d + 1 := ⟨j - i - 1, by omega⟩
    rw [cell, hd]
    simp only [cellFuel]
    by_cases hdiag : i + 1 = j
    · rw [if_pos hdiag, if_pos hdiag]
    · rw [if_neg hdiag, if_neg hdiag]
      apply List.flatMap_congr
      intro k hk
      rw [List.mem_range'_1] at hk
      rw [cell, cell, cellFuel_mono g toks d (k - i) i k (by omega) (by omega),
        cellFuel_mono g toks d (j - k) k j (by omega) (by omega)]

lemma cell_nil_of_ge (g : Grammar) (toks : List String) (i j : Nat) (h : j ≤ i) :
    cell g toks i j = [] :=
  cellFuel_nil_of_le g toks _ i j h

/-! ## The imperative fill computes the closed form -/

lemma updTable_at (t : Table) (i j : Nat) (v : List PTree) : updTable t i j v i j = v := by
  simp [updTable]

lemma updTable_ne (t : Table) (i j : Nat) (v : List PTree) (i' j' : Nat)
    (h : ¬(i' = i ∧ j' = j)) : updTable t i j v i' j' = t i' j' := by
  simp only [updTable, if_neg h]

lemma fillK_out (g : Grammar) (i j : Nat) (i' j' : Nat) (h : ¬(i' = i ∧ j' = j)) :
    ∀ (ks : List Nat) (t : Table), fillK g i j t ks i' j' = t i' j' := by
  intro ks
  induction ks with
  | nil => intro t; rfl
  | cons k ks ih =>
      intro t
      show fillK g i j (updTable t i j _) ks i' j' = _
      rw [ih, updTable_ne _ _ _ _ _ _ h]

lemma fillK_at (g : Grammar) (i j : Nat) :
    ∀ (ks : List Nat) (t : Table), (∀ k ∈ ks, k ≠ i ∧ k ≠ j) →
      fillK g i j t ks i j =
        t i j ++ ks.flatMap (fun k => combineCells g (t i k) (t k j)) := by
  intro ks
  induction ks with
  | nil => intro t _; simp [fillK]
  | cons k ks ih =>
      intro t hks
      show fillK g i j (updTable t i j (t i j ++ calculateIntermediateCell g t i j k)) ks i j = _
      rw [ih _ (fun k' hk' => hks k' (List.mem_cons_of_mem _ hk'))]
      have hk := hks k (List.mem_cons_self _ _)
      rw [updTable_at]
      have hik : ∀ k' ∈ ks, updTable t i j (t i j ++ calculateIntermediateCell g t i j k) i k'
          = t i k' := by
        intro k' hk'
        exact updTable_ne _ _ _ _ _ _ (by simp [(hks k' (List.mem_cons_of_mem _ hk')).2])
      have hkj : ∀ k' ∈ ks, updTable t i j (t i j ++ calculateIntermediateCell g t i j k) k' j
          = t k' j := by
        intro k' hk'
        exact updTable_ne _ _ _ _ _ _ (by simp [(hks k' (List.mem_cons_of_mem _ hk')).1])
      rw [List.flatMap_cons, ← List.append_assoc]
      congr 1
      apply List.flatMap_congr
      intro k' hk'
      rw [hik k' hk', hkj k' hk']

lemma fillI_spec (g : Grammar) (toks : List String) (j : Nat) (t : Table)
    (hj : 1 ≤ j)
    (H1 : ∀ i' j', j' < j → t i' j' = cell g toks i' j')
    (H2 : t (j - 1) j = cell g toks (j - 1) j)
    (H3 : ∀ i', i' + 1 < j → t i' j = []) :
    ∀ d, d ≤ j →
      (∀ i' j', j' ≠ j → fillI g j t (List.range' (j - d) d).reverse i' j' = t i' j') ∧
      (∀ i', (i' < j - d ∨ j ≤ i') → fillI g j t (List.range' (j - d) d).reverse i' j = t i' j) ∧
      (∀ i', j - d ≤ i' → i' < j → fillI g j t (List.range' (j - d) d).reverse i' j
        = cell g toks i' j) := by
  intro d
  induction d with
  | zero =>
      intro _
      refine ⟨fun i' j' _ => rfl, fun i' _ => rfl, fun i' h1 h2 => absurd h1 (by omega)⟩
  | succ d ih =>
      intro hd
      obtain ⟨u1, u2, u3⟩ := ih (by omega)
      have hm : j - (d + 1) + 1 = j - d := by omega
      have hsplit : (List.range' (j - (d + 1)) (d + 1)).reverse
          = (List.range' (j - d) d).reverse ++ [j - (d + 1)] := by
        rw [List.range'_succ, List.reverse_cons, hm]
      have hfold : fillI g j t (List.range' (j - (d + 1)) (d + 1)).reverse
          = fillK g (j - (d + 1)) j (fillI g j t (List.range' (j - d) d).reverse)
              (List.range' (j - (d + 1) + 1) (j - (j - (d + 1) + 1))) := by
        rw [hsplit]
        simp [fillI, List.foldl_append]
      set m := j - (d + 1) with hmdef
      set u := fillI g j t (List.range' (j - d) d).reverse with hudef
      have hks : ∀ k ∈ List.range' (m + 1) (j - (m + 1)), k ≠ m ∧ k ≠ j := by
        intro k hk
        rw [List.mem_range'_1] at hk
        omega
      refine ⟨?_, ?_, ?_⟩
      · intro i' j' hj'
        rw [hfold, fillK_out g _ _ _ _ (by simp [hj']), u1 i' j' hj']
      · intro i' hi'
        rw [hfold, fillK_out g _ _ _ _ (by rintro ⟨rfl, -⟩; omega),
          u2 i' (by omega)]
      · intro i' hi1 hi2
        by_cases him : i' = m
        · subst him
          rw [hfold, fillK_at g _ _ _ _ hks]
          by_cases hdm : d = 0
          · have hm1 : m = j - 1 := by omega
            have hrange : j - (m + 1) = 0 := by omega
            rw [hrange]
            simp only [List.range'_zero, List.flatMap_nil, List.append_nil]
            rw [u2 m (by omega), hm1]
            exact H2
          · have hmj : m + 1 < j := by omega
            have humj : u m j = [] := by
              rw [u2 m (by omega)]
              exact H3 m hmj
            rw [humj, List.nil_append]
            rw [cell_eq g toks m j, if_neg (by omega)]
            apply List.flatMap_congr
            intro k hk
            rw [List.mem_range'_1] at hk
            have e1 : u m k = cell g toks m k := by
              rw [u1 m k (by omega)]
              exact H1 m k (by omega)
            have e2 : u k j = cell g toks k j := u3 k (by omega) (by omega)
            rw [e1, e2]
        · rw [hfold, fillK_out g _ _ _ _ (by rintro ⟨rfl, -⟩; exact him rfl)]
          exact u3 i' (by omega) hi2

lemma buildTable_invariant (g : Grammar) (toks : List String) :
    ∀ m,
      (∀ i' j', j' ≤ m →
        (List.range' 1 m).foldl (fillJ g toks) (fun _ _ => []) i' j' = cell g toks i' j') ∧
      (∀ i' j', m < j' →
        (List.range' 1 m).foldl (fillJ g toks) (fun _ _ => []) i' j' = []) := by
  intro m
  induction m with
  | zero =>
      constructor
      · intro i' j' h
        have : j' = 0 := by omega
        subst this
        exact (cell_nil_of_ge g toks i' 0 (by omega)).symm
      · intro i' j' _
        rfl
  | succ m ih =>
      obtain ⟨ih1, ih2⟩ := ih
      set Tm := (List.range' 1 m).foldl (fillJ g toks) (fun _ _ => []) with hTm
      have hconcat : List.range' 1 (m + 1) = List.range' 1 m ++ [1 + m] :=
        List.range'_1_concat 1 m
      have hfold : (List.range' 1 (m + 1)).foldl (fillJ g toks) (fun _ _ => [])
          = fillJ g toks Tm (1 + m) := by
        rw [hconcat, List.foldl_append]
        rfl
      set j := 1 + m with hjdef
      have hj1 : 1 ≤ j := by omega
      set t' := updTable Tm (j - 1) j (calculateDiagonalCell g (toks.getD (j - 1) "")) with ht'
      have H1 : ∀ i' j', j' < j → t' i' j' = cell g toks i' j' := by
        intro i' j' hj'
        rw [ht', updTable_ne _ _ _ _ _ _ (by rintro ⟨-, rfl⟩; omega)]
        exact ih1 i' j' (by omega)
      have H2 : t' (j - 1) j = cell g toks (j - 1) j := by
        rw [ht', updTable_at, cell_eq g toks (j - 1) j, if_pos (by omega)]
      have H3 : ∀ i', i' + 1 < j → t' i' j = [] := by
        intro i' hi'
        rw [ht', updTable_ne _ _ _ _ _ _ (by rintro ⟨rfl, -⟩; omega)]
        exact ih2 i' j (by omega)
      have hfillJ : fillJ g toks Tm j = fillI g j t' (List.range' (j - j) j).reverse := by
        show fillI g j
            (updTable Tm (j - 1) j (calculateDiagonalCell g (toks.getD (j - 1) "")))
            (List.range j).reverse = _
        rw [← ht', Nat.sub_self, ← List.range_eq_range']
      obtain ⟨u1, u2, u3⟩ := fillI_spec g toks j t' hj1 H1 H2 H3 j (by omega)
      constructor
      · intro i' j' hj'
        rw [hfold, hfillJ]
        by_cases hcol : j' = j
        · subst hcol
          by_cases hrow : i' < j
          · exact u3 i' (by omega) hrow
          · rw [u2 i' (by omega), ht',
              updTable_ne _ _ _ _ _ _ (by rintro ⟨rfl, -⟩; omega),
              ih2 i' j (by omega), cell_nil_of_ge g toks i' j (by omega)]
        · have : j' ≤ m := by omega
          rw [u1 i' j' hcol, H1 i' j' (by omega)]
      · intro i' j' hj'
        rw [hfold, hfillJ, u1 i' j' (by omega), ht',
          updTable_ne _ _ _ _ _ _ (by rintro ⟨-, rfl⟩; omega)]
        exact ih2 i' j' (by omega)

/-- The imperative table fill of `parse_tokenized_sentence` computes, in
every cell `(i, j)` with `j ≤ n`, exactly the recursive closed form `cell`. -/
theorem buildTable_eq_cell (g : Grammar) (toks : List String) (i j : Nat)
    (hj : j ≤ toks.length) :
    buildTable g toks i j = cell g toks i j :=
  (buildTable_invariant g toks toks.length).1 i j hj

/-! ## Membership and dedup lemmas -/

lemma mem_dedupFirstAux {α : Type} [DecidableEq α] :
    ∀ (l : List α) (seen : List α) (x : α),
      x ∈ dedupFirstAux seen l ↔ x ∈ l ∧ x ∉ seen := by
  intro l
  induction l with
  | nil => intro seen x; simp [dedupFirstAux]
  | cons a l ih =>
      intro seen x
      rw [dedupFirstAux]
      by_cases ha : a ∈ seen
      · rw [if_pos ha, ih]
        constructor
        · rintro ⟨h1, h2⟩
          exact ⟨List.mem_cons_of_mem _ h1, h2⟩
        · rintro ⟨h1, h2⟩
          rcases List.mem_cons.mp h1 with rfl | h1
          · exact absurd ha h2
          · exact ⟨h1, h2⟩
      · rw [if_neg ha]
        simp only [List.mem_cons, ih, List.mem_cons]
        constructor
        · rintro (rfl | ⟨h1, h2⟩)
          · exact ⟨Or.inl rfl, ha⟩
          · refine ⟨Or.inr h1, fun hs => h2 (Or.inr hs)⟩
        · rintro ⟨rfl | h1, h2⟩
          · exact Or.inl rfl
          · by_cases hxa : x = a
            · exact Or.inl hxa
            · exact Or.inr ⟨h1, by rintro (h | h) <;> [exact hxa h; exact h2 h]⟩

lemma mem_dedupFirst {α : Type} [DecidableEq α] :
    ∀ (l : List α) (x : α), x ∈ dedupFirst l ↔ x ∈ l := by
  intro l x
  rw [dedupFirst, mem_dedupFirstAux]
  simp

lemma nodup_dedupFirstAux {α : Type} [DecidableEq α] :
    ∀ (l : List α) (seen : List α), (dedupFirstAux seen l).Nodup := by
  intro l
  induction l with
  | nil => intro seen; simp [dedupFirstAux]
  | cons a l ih =>
      intro seen
      rw [dedupFirstAux]
      by_cases ha : a ∈ seen
      · rw [if_pos ha]; exact ih seen
      · rw [if_neg ha]
        refine List.Nodup.cons ?_ (ih (a :: seen))
        intro hmem
        have := (mem_dedupFirstAux l (a :: seen) a).mp hmem
        exact this.2 (List.mem_cons_self _ _)

lemma nodup_dedupFirst {α : Type} [DecidableEq α] (l : List α) : (dedupFirst l).Nodup :=
  nodup_dedupFirstAux l []

lemma countP_eq_one_of_nodup_mem {α : Type} [DecidableEq α] :
    ∀ (l : List α) (a : α), l.Nodup → a ∈ l →
      l.countP (fun x => decide (x = a)) = 1 := by
  intro l
  induction l with
  | nil => intro a _ h; simp at h
  | cons b l ih =>
      intro a hnd hmem
      rw [List.countP_cons]
      rcases List.mem_cons.mp hmem with rfl | hmem'
      · have hnotin : a ∉ l := (List.nodup_cons.mp hnd).1
        have : l.countP (fun x => decide (x = a)) = 0 := by
          rw [List.countP_eq_zero]
          intro x hx
          simp only [decide_eq_true_eq]
          rintro rfl
          exact hnotin hx
        simp [this]
      · have hba : ¬(b = a) := by
          rintro rfl
          exact (List.nodup_cons.mp hnd).1 hmem'
        rw [ih a (List.nodup_cons.mp hnd).2 hmem']
        simp [hba]

lemma mem_combineCells {g : Grammar} {L1 L2 : List PTree} {t : PTree} :
    t ∈ combineCells g L1 L2 ↔
      ∃ b ∈ L1, ∃ c ∈ L2,
        ∃ a ∈ dedupFirst ((getProductionsWithRhs g b.labelOf c.labelOf).map Production.lhs),
          t = PTree.node a [b, c] := by
  simp only [combineCells, List.mem_flatMap, List.mem_map]
  constructor
  · rintro ⟨b, hb, c, hc, a, ha, rfl⟩
    exact ⟨b, hb, c, hc, a, ha, rfl⟩
  · rintro ⟨b, hb, c, hc, a, ha, rfl⟩
    exact ⟨b, hb, c, hc, a, ha, rfl⟩

/-- Membership in the lookup of `__get_productions_with_rhs`. -/
lemma mem_getProductionsWithRhs {g : Grammar} {b c : Symb} {p : Production} :
    p ∈ getProductionsWithRhs g b c ↔
      p ∈ g.productions ∧ p.rhs.head? = some b ∧ c ∈ p.rhs := by
  simp only [getProductionsWithRhs, Grammar.productionsWithRhsHead, List.mem_filter,
    decide_eq_true_eq]
  tauto

/-- Whenever `A → B C` is an actual production and subtrees labeled `B`, `C`
sit in cells `(i, k)` and `(k, j)`, the tree `A(B-tree, C-tree)` is in
cell `(i, j)`: no valid span or split point is skipped. -/
lemma mem_cell_of_parts {g : Grammar} {toks : List String} {i k j : Nat}
    {a : Symb} {b c : PTree}
    (hik : i < k) (hkj : k < j)
    (hb : b ∈ cell g toks i k) (hc : c ∈ cell g toks k j)
    (hp : Production.mk a [b.labelOf, c.labelOf] ∈ g.productions) :
    PTree.node a [b, c] ∈ cell g toks i j := by
  rw [cell_eq g toks i j, if_neg (by omega)]
  rw [List.mem_flatMap]
  refine ⟨k, ?_, ?_⟩
  · rw [List.mem_range'_1]
    omega
  · rw [mem_combineCells]
    refine ⟨b, hb, c, hc, a, ?_, rfl⟩
    rw [mem_dedupFirst, List.mem_map]
    refine ⟨Production.mk a [b.labelOf, c.labelOf], ?_, rfl⟩
    rw [mem_getProductionsWithRhs]
    exact ⟨hp, rfl, by simp⟩

/-! ## Yield (coverage) of the cell contents -/

lemma yield_node_pair (a : Symb) (b c : PTree) :
    (PTree.node a [b, c]).yield = b.yield ++ c.yield := by
  simp [PTree.yield, yieldList]

lemma yield_node_leaf (a : Symb) (w : String) :
    (PTree.node a [PTree.leaf w]).yield = [w] := by
  simp [PTree.yield, yieldList]

lemma drop_take_one {α : Type} [Inhabited α] :
    ∀ (l : List α) (i : Nat), i < l.length → (l.drop i).take 1 = [l.getD i default] := by
  intro l
  induction l with
  | nil => intro i h; simp at h
  | cons x xs ih =>
      intro i h
      cases i with
      | zero => simp
      | succ i =>
          simp only [List.drop_succ_cons, List.getD_cons_succ]
          exact ih i (by simpa using h)

lemma mem_diag_shape {g : Grammar} {w : String} {t : PTree}
    (ht : t ∈ calculateDiagonalCell g w) :
    ∃ a, t = PTree.node a [PTree.leaf w] := by
  simp only [calculateDiagonalCell, List.mem_map] at ht
  obtain ⟨a, -, rfl⟩ := ht
  exact ⟨a, rfl⟩

/-- Every tree in cell `(i, j)` has as yield exactly the tokens `i .. j-1`. -/
lemma cell_yield (g : Grammar) (toks : List String) :
    ∀ (d i j : Nat), j - i ≤ d → j ≤ toks.length →
      ∀ t ∈ cell g toks i j, t.yield = (toks.drop i).take (j - i) := by
  intro d
  induction d with
  | zero =>
      intro i j hd _ t ht
      rw [cell_nil_of_ge g toks i j (by omega)] at ht
      simp at ht
  | succ d ih =>
      intro i j hd hj t ht
      by_cases hij : j ≤ i
      · rw [cell_nil_of_ge g toks i j hij] at ht
        simp at ht
      · rw [cell_eq g toks i j] at ht
        by_cases hdiag : i + 1 = j
        · rw [if_pos hdiag] at ht
          obtain ⟨a, rfl⟩ := mem_diag_shape ht
          rw [yield_node_leaf]
          have hi : i < toks.length := by omega
          have : j - i = 1 := by omega
          rw [this, drop_take_one toks i hi]
          rfl
        · rw [if_neg hdiag, List.mem_flatMap] at ht
          obtain ⟨k, hk, htk⟩ := ht
          rw [List.mem_range'_1] at hk
          rw [mem_combineCells] at htk
          obtain ⟨b, hb, c, hc, a, -, rfl⟩ := htk
          rw [yield_node_pair]
          rw [ih i k (by omega) (by omega) b hb, ih k j (by omega) hj c hc]
          have hsplit : j - i = (k - i) + (j - k) := by omega
          rw [hsplit, List.take_add, List.drop_drop]
          have : i + (k - i) = k := by omega
          rw [this]

/-! ## No duplicates in any cell -/

lemma nodup_combineCells {g : Grammar} {L1 L2 : List PTree}
    (h1 : L1.Nodup) (h2 : L2.Nodup) : (combineCells g L1 L2).Nodup := by
  rw [combineCells, List.nodup_flatMap]
  constructor
  · intro b _
    rw [List.nodup_flatMap]
    constructor
    · intro c _
      refine List.Nodup.map ?_ (nodup_dedupFirst _)
      intro a a' ha
      simpa using ha
    · refine h2.imp ?_
      intro c c' hcc x hx hx'
      simp only [List.mem_map] at hx hx'
      obtain ⟨a, -, rfl⟩ := hx
      obtain ⟨a', -, he⟩ := hx'
      apply hcc
      have := (PTree.node.injEq _ _ _ _).mp he.symm
      simpa using this.2
  · refine h1.imp ?_
    intro b b' hbb x hx hx'
    simp only [List.mem_flatMap, List.mem_map] at hx hx'
    obtain ⟨c, -, a, -, rfl⟩ := hx
    obtain ⟨c', -, a', -, he⟩ := hx'
    apply hbb
    have h2 := (PTree.node.injEq _ _ _ _).mp he.symm
    have h3 : b = b' ∧ c = c' := by simpa using h2.2
    exact h3.1

/-- Every cell of the completed table is duplicate-free. -/
lemma cell_nodup (g : Grammar) (toks : List String) :
    ∀ (d i j : Nat), j - i ≤ d → j ≤ toks.length → (cell g toks i j).Nodup := by
  intro d
  induction d with
  | zero =>
      intro i j hd _
      rw [cell_nil_of_ge g toks i j (by omega)]
      exact List.nodup_nil
  | succ d ih =>
      intro i j hd hj
      by_cases hij : j ≤ i
      · rw [cell_nil_of_ge g toks i j hij]; exact List.nodup_nil
      · rw [cell_eq g toks i j]
        by_cases hdiag : i + 1 = j
        · rw [if_pos hdiag]
          refine List.Nodup.map ?_ (nodup_dedupFirst _)
          intro a a' ha
          simpa using ha
        · rw [if_neg hdiag, List.nodup_flatMap]
          constructor
          · intro k hk
            rw [List.mem_range'_1] at hk
            exact nodup_combineCells (ih i k (by omega) (by omega)) (ih k j (by omega) hj)
          · refine (List.pairwise_lt_range' (i + 1) (j - (i + 1)) 1 (by simp)).imp_of_mem ?_
            intro k k' hk hk' hlt x hx hx'
            rw [List.mem_range'_1] at hk hk'
            rw [mem_combineCells] at hx hx'
            obtain ⟨b, hb, c, hc, a, -, rfl⟩ := hx
            obtain ⟨b', hb', c', hc', a', -, he⟩ := hx'
            have hinj := (PTree.node.injEq _ _ _ _).mp he
            have hbb : b = b' ∧ c = c' := by simpa using hinj.2
            rw [← hbb.1] at hb'
            have e1 : b.yield = (toks.drop i).take (k - i) :=
              cell_yield g toks (d + 1) i k (by omega) (by omega) b hb
            have e2 : b.yield = (toks.drop i).take (k' - i) :=
              cell_yield g toks (d + 1) i k' (by omega) (by omega) b hb'
            have l1 : b.yield.length = k - i := by
              rw [e1, List.length_take, List.length_drop]
              omega
            have l2 : b.yield.length = k' - i := by
              rw [e2, List.length_take, List.length_drop]
              omega
            omega

/-! ## Completeness: every sound derivation with matching yield is found -/

lemma treeSoundB_node {g : Grammar} {a : Symb} {cs : List PTree} :
    treeSoundB g (PTree.node a cs) = true ↔
      Production.mk a (cs.map PTree.labelOf) ∈ g.productions ∧ treeSoundList g cs = true := by
  simp [treeSoundB]

lemma treeSoundList_iff (g : Grammar) :
    ∀ l : List PTree, treeSoundList g l = true ↔ ∀ t ∈ l, treeSoundB g t = true := by
  intro l
  induction l with
  | nil => simp [treeSoundList]
  | cons t ts ih => simp [treeSoundList, ih]

lemma cnf_shape {g : Grammar} {p : Production} (hg : g.cnfCheck = true)
    (hp : p ∈ g.productions) :
    p.lhs.isNT = true ∧
      ((∃ w, p.rhs = [Symb.tm w]) ∨ ∃ B C, p.rhs = [Symb.nt B, Symb.nt C]) := by
  rw [Grammar.cnfCheck, Bool.and_eq_true, List.all_eq_true] at hg
  have h := hg.2 p hp
  obtain ⟨l, r⟩ := p
  simp only [Production.cnfOk, Bool.and_eq_true] at h
  refine ⟨h.1, ?_⟩
  have h2 := h.2
  rcases r with - | ⟨x, - | ⟨y, - | ⟨z, rest⟩⟩⟩
  · simp at h2
  · cases x with
    | tm w => exact Or.inl ⟨w, rfl⟩
    | nt B => simp at h2
  · cases x with
    | tm w => simp at h2
    | nt B =>
        cases y with
        | tm w => simp at h2
        | nt C => exact Or.inr ⟨B, C, rfl⟩
  · simp at h2

lemma sound_tm_label {g : Grammar} {c : PTree} {w : String} (hg : g.cnfCheck = true)
    (hc : treeSoundB g c = true) (hl : c.labelOf = Symb.tm w) : c = PTree.leaf w := by
  cases c with
  | leaf w' =>
      simp only [PTree.labelOf, Symb.tm.injEq] at hl
      rw [hl]
  | node l cs =>
      simp only [PTree.labelOf] at hl
      subst hl
      obtain ⟨hprod, -⟩ := treeSoundB_node.mp hc
      have := (cnf_shape hg hprod).1
      simp [Symb.isNT] at this

lemma node_of_nt_label {c : PTree} {B : String} (hl : c.labelOf = Symb.nt B) :
    ∃ a cs, c = PTree.node a cs := by
  cases c with
  | leaf w => simp [PTree.labelOf] at hl
  | node l cs => exact ⟨l, cs, rfl⟩

lemma map_labelOf_one {cs : List PTree} {x : Symb} (h : cs.map PTree.labelOf = [x]) :
    ∃ c0, cs = [c0] ∧ c0.labelOf = x := by
  match cs with
  | [] => simp at h
  | [c0] =>
      simp only [List.map_cons, List.map_nil, List.cons.injEq, and_true] at h
      exact ⟨c0, rfl, h⟩
  | _ :: _ :: _ => simp at h

lemma map_labelOf_two {cs : List PTree} {x y : Symb} (h : cs.map PTree.labelOf = [x, y]) :
    ∃ c0 c1, cs = [c0, c1] ∧ c0.labelOf = x ∧ c1.labelOf = y := by
  match cs with
  | [] => simp at h
  | [_] => simp at h
  | [c0, c1] =>
      simp only [List.map_cons, List.map_nil, List.cons.injEq, and_true] at h
      exact ⟨c0, c1, rfl, h.1, h.2⟩
  | _ :: _ :: _ :: _ => simp at h

/-- Under a CNF grammar, a sound internal node derives at least one token. -/
lemma sound_node_yield_pos {g : Grammar} (hg : g.cnfCheck = true) :
    ∀ (n : Nat) (a : Symb) (cs : List PTree), sizeOf (PTree.node a cs) ≤ n →
      treeSoundB g (PTree.node a cs) = true → 0 < (PTree.node a cs).yield.length := by
  intro n
  induction n with
  | zero =>
      intro a cs hsz _
      simp only [PTree.node.sizeOf_spec] at hsz
      omega
  | succ n ih =>
      intro a cs hsz hsound
      obtain ⟨hprod, hlist⟩ := treeSoundB_node.mp hsound
      obtain ⟨-, hshape⟩ := cnf_shape hg hprod
      rcases hshape with ⟨w, hw⟩ | ⟨B, C, hBC⟩
      · obtain ⟨c0, rfl, hc0l⟩ := map_labelOf_one hw
        have hc0 : treeSoundB g c0 = true :=
          (treeSoundList_iff g _).mp hlist c0 (by simp)
        have : c0 = PTree.leaf w := sound_tm_label hg hc0 hc0l
        subst this
        rw [yield_node_leaf]
        simp
      · obtain ⟨b, c, rfl, hbl, hcl⟩ := map_labelOf_two hBC
        obtain ⟨ab, csb, rfl⟩ := node_of_nt_label hbl
        have hbsound : treeSoundB g (PTree.node ab csb) = true :=
          (treeSoundList_iff g _).mp hlist _ (by simp)
        have hbsz : sizeOf (PTree.node ab csb) ≤ n := by
          have h1 : sizeOf (PTree.node ab csb) < sizeOf [PTree.node ab csb, c] :=
            List.sizeOf_lt_of_mem (by simp)
          simp only [PTree.node.sizeOf_spec] at hsz
          omega
        have hpos := ih ab csb hbsz hbsound
        rw [yield_node_pair, List.length_append]
        omega

/-- Every sound internal node whose yield matches the tokens at position `i`
appears in the corresponding cell of the completed table. -/
lemma complete_aux (g : Grammar) (toks : List String) (hg : g.cnfCheck = true) :
    ∀ (n : Nat) (a : Symb) (cs : List PTree),
      sizeOf (PTree.node a cs) ≤ n →
      treeSoundB g (PTree.node a cs) = true →
      ∀ i, i + (PTree.node a cs).yield.length ≤ toks.length →
        (toks.drop i).take (PTree.node a cs).yield.length = (PTree.node a cs).yield →
        PTree.node a cs ∈ cell g toks i (i + (PTree.node a cs).yield.length) := by
  intro n
  induction n with
  | zero =>
      intro a cs hsz
      exfalso
      simp only [PTree.node.sizeOf_spec] at hsz
      omega
  | succ n ih =>
      intro a cs hsz hsound i hlen hslice
      obtain ⟨hprod, hlist⟩ := treeSoundB_node.mp hsound
      obtain ⟨-, hshape⟩ := cnf_shape hg hprod
      rcases hshape with ⟨w, hw⟩ | ⟨B, C, hBC⟩
      · -- unary production `a → w`
        obtain ⟨c0, rfl, hc0l⟩ := map_labelOf_one hw
        have hc0 : treeSoundB g c0 = true :=
          (treeSoundList_iff g _).mp hlist c0 (by simp)
        have hc0leaf : c0 = PTree.leaf w := sound_tm_label hg hc0 hc0l
        subst hc0leaf
        rw [yield_node_leaf] at hslice hlen ⊢
        simp only [List.length_cons, List.length_nil] at hslice hlen ⊢
        rw [cell_eq g toks i (i + 1), if_pos rfl]
        have hgd : toks.getD i "" = w := by
          have h1 := drop_take_one toks i (by omega)
          rw [hslice] at h1
          have : (default : String) = "" := rfl
          rw [this] at h1
          exact (List.cons.injEq _ _ _ _).mp h1.symm |>.1
        rw [hgd]
        simp only [calculateDiagonalCell, List.mem_map]
        refine ⟨a, ?_, rfl⟩
        rw [mem_dedupFirst, List.mem_map]
        refine ⟨Production.mk a [Symb.tm w], ?_, rfl⟩
        simp only [Grammar.productionsWithRhsHead, List.mem_filter, decide_eq_true_eq]
        exact ⟨by simpa using hprod, rfl⟩
      · -- binary production `a → B C`
        obtain ⟨b, c, rfl, hbl, hcl⟩ := map_labelOf_two hBC
        obtain ⟨ab, csb, rfl⟩ := node_of_nt_label hbl
        obtain ⟨ac, csc, rfl⟩ := node_of_nt_label hcl
        have hbs : treeSoundB g (PTree.node ab csb) = true :=
          (treeSoundList_iff g _).mp hlist _ (by simp)
        have hcs2 : treeSoundB g (PTree.node ac csc) = true :=
          (treeSoundList_iff g _).mp hlist _ (by simp)
        have hb_sz : sizeOf (PTree.node ab csb) ≤ n := by
          have h1 : sizeOf (PTree.node ab csb)
              < sizeOf [PTree.node ab csb, PTree.node ac csc] :=
            List.sizeOf_lt_of_mem (by simp)
          simp only [PTree.node.sizeOf_spec] at hsz
          omega
        have hc_sz : sizeOf (PTree.node ac csc) ≤ n := by
          have h1 : sizeOf (PTree.node ac csc)
              < sizeOf [PTree.node ab csb, PTree.node ac csc] :=
            List.sizeOf_lt_of_mem (by simp)
          simp only [PTree.node.sizeOf_spec] at hsz
          omega
        have hbpos := sound_node_yield_pos hg (sizeOf (PTree.node ab csb)) ab csb le_rfl hbs
        have hcpos := sound_node_yield_pos hg (sizeOf (PTree.node ac csc)) ac csc le_rfl hcs2
        rw [yield_node_pair, List.length_append] at hslice hlen ⊢
        rw [List.take_add, List.drop_drop] at hslice
        have hlb : ((toks.drop i).take (PTree.node ab csb).yield.length).length
            = (PTree.node ab csb).yield.length := by
          rw [List.length_take, List.length_drop]
          omega
        obtain ⟨hby, hcy⟩ := List.append_inj hslice hlb
        have hbmem := ih ab csb hb_sz hbs i (by omega) hby
        have hcmem := ih ac csc hc_sz hcs2 (i + (PTree.node ab csb).yield.length)
          (by omega) hcy
        have hassoc : i + (PTree.node ab csb).yield.length + (PTree.node ac csc).yield.length
            = i + ((PTree.node ab csb).yield.length + (PTree.node ac csc).yield.length) := by
          omega
        rw [hassoc] at hcmem
        exact mem_cell_of_parts (by omega) (by omega) hbmem hcmem (by simpa using hprod)

/-! ## The parser output in closed form, and concrete test grammars -/

lemma parse_eq_filter (g : Grammar) (toks : List String) :
    parse_tokenized_sentence g toks =
      (cell g toks 0 toks.length).filter (fun entry => decide (entry.labelOf = g.start)) := by
  show (buildTable g toks 0 (toks.length + 1 - 1)).filter _ = _
  have h : toks.length + 1 - 1 = toks.length := rfl
  rw [h, buildTable_eq_cell g toks 0 toks.length le_rfl]

/-- Scenario-1 grammar: `S → NP VP`, `NP → Det N`, `VP → V NP`,
`Det → "the"`, `N → "dog"`, `N → "cat"`, `V → "chased"`, start `S`. -/
def g1 : Grammar := ⟨[
  ⟨.nt "S", [.nt "NP", .nt "VP"]⟩,
  ⟨.nt "NP", [.nt "Det", .nt "N"]⟩,
  ⟨.nt "VP", [.nt "V", .nt "NP"]⟩,
  ⟨.nt "Det", [.tm "the"]⟩,
  ⟨.nt "N", [.tm "dog"]⟩,
  ⟨.nt "N", [.tm "cat"]⟩,
  ⟨.nt "V", [.tm "chased"]⟩], .nt "S"⟩

def toks1 : List String := ["the", "dog", "chased", "the", "cat"]

/-- A CNF grammar on which the pair lookup misbehaves for equal arguments:
`A → N M`, `N → "a"`, `M → "b"`, start `A`. -/
def gBug : Grammar := ⟨[
  ⟨.nt "A", [.nt "N", .nt "M"]⟩,
  ⟨.nt "N", [.tm "a"]⟩,
  ⟨.nt "M", [.tm "b"]⟩], .nt "A"⟩

/-- A grammar with a duplicated unary production `A → "w"`. -/
def gDup : Grammar := ⟨[⟨.nt "A", [.tm "w"]⟩, ⟨.nt "A", [.tm "w"]⟩], .nt "A"⟩

def npTree1 : PTree :=
  .node (.nt "NP") [.node (.nt "Det") [.leaf "the"], .node (.nt "N") [.leaf "dog"]]

def vpTree1 : PTree :=
  .node (.nt "VP") [.node (.nt "V") [.leaf "chased"],
    .node (.nt "NP") [.node (.nt "Det") [.leaf "the"], .node (.nt "N") [.leaf "cat"]]]

/-! ## Claim theorems -/

/-- C1.  The claim "every tree returned by `parse_tokenized_sentence` is
sound" FAILS on the code: on the grammar `{A → N M, N → "a", M → "b"}` and
tokens `["a", "a"]`, the parser returns the tree `A(N("a"), N("a"))`, whose
root uses `A → N N`, which is not a production.  (The pair lookup for
`(N, N)` accepts `A → N M` because it checks the second symbol by
membership anywhere in the right-hand side.)  This contradicts the
docstring of `__calculate_intermediate_cell`, so it is a code bug. -/
theorem C1_unsound_tree_returned :
    parse_tokenized_sentence gBug ["a", "a"] =
      [PTree.node (Symb.nt "A") [PTree.node (Symb.nt "N") [PTree.leaf "a"],
        PTree.node (Symb.nt "N") [PTree.leaf "a"]]] ∧
    treeSoundB gBug (PTree.node (Symb.nt "A") [PTree.node (Symb.nt "N") [PTree.leaf "a"],
        PTree.node (Symb.nt "N") [PTree.leaf "a"]]) = false := by
  constructor
  · rw [parse_eq_filter]
    decide
  · decide

/-- C2, counterexample.  The claim "`__get_productions_with_rhs (B, C)`
returns exactly the productions whose right-hand side is the ordered pair
`(B, C)`" is false: querying `(N, N)` on the grammar `{A → N M, N → "a",
M → "b"}` returns `A → N M`, whose right-hand side is not `(N, N)`. -/
theorem C2_pair_lookup_counterexample :
    Production.mk (Symb.nt "A") [Symb.nt "N", Symb.nt "M"]
        ∈ getProductionsWithRhs gBug (Symb.nt "N") (Symb.nt "N") ∧
      ([Symb.nt "N", Symb.nt "M"] : List Symb) ≠ [Symb.nt "N", Symb.nt "N"] := by
  decide

/-- C2, amended.  For a CNF grammar and two DISTINCT symbols `b ≠ c`,
`__get_productions_with_rhs (b, c)` returns exactly the productions whose
right-hand side is the ordered pair `(b, c)` (in particular, the empty list
— not an error — when no such production exists); only for `b = c` can
productions with a different right-hand side be returned. -/
theorem C2_pair_lookup_exact_of_ne (g : Grammar) (b c : Symb)
    (hg : g.cnfCheck = true) (hbc : b ≠ c) :
    getProductionsWithRhs g b c
      = g.productions.filter (fun p => decide (p.rhs = [b, c])) := by
  simp only [getProductionsWithRhs, Grammar.productionsWithRhsHead, List.filter_filter]
  apply List.filter_congr
  intro p hp
  rw [← Bool.decide_and]
  apply decide_eq_decide.mpr
  obtain ⟨-, hshape⟩ := cnf_shape hg hp
  rcases hshape with ⟨w, hw⟩ | ⟨B, C, hBC⟩
  · rw [hw]
    constructor
    · rintro ⟨hc, hb2⟩
      simp only [List.mem_singleton] at hc
      simp only [List.head?_cons, Option.some.injEq] at hb2
      exact absurd (hb2.symm.trans hc.symm) hbc
    · intro he
      simp at he
  · rw [hBC]
    constructor
    · rintro ⟨hc, hb2⟩
      simp only [List.head?_cons, Option.some.injEq] at hb2
      rcases List.mem_cons.mp hc with hcb | hc2
      · exact absurd (hb2.symm.trans hcb.symm) hbc
      · simp only [List.mem_singleton] at hc2
        rw [← hb2, hc2]
    · intro he
      obtain ⟨h1, h2⟩ := (List.cons.injEq _ _ _ _).mp he
      obtain ⟨h3, -⟩ := (List.cons.injEq _ _ _ _).mp h2
      constructor
      · rw [← h3]
        simp
      · simp [← h1]

/-- Witness for C2 (amended): concrete instantiation on the scenario-1
grammar with the distinct pair `(Det, N)`. -/
theorem C2_pair_lookup_exact_witness :
    getProductionsWithRhs g1 (Symb.nt "Det") (Symb.nt "N")
      = g1.productions.filter
          (fun p => decide (p.rhs = [Symb.nt "Det", Symb.nt "N"])) :=
  C2_pair_lookup_exact_of_ne g1 (Symb.nt "Det") (Symb.nt "N") (by decide) (by decide)

/-- C3.  The cell-filling pass (`j` from `1` to `n`, `i` from `j-1` down to
`0`, `k` from `i+1` to `j-1`) misses nothing: for every span `(i, j)` with
`j ≤ n`, every split point `i < k < j`, every `B`-subtree in cell `(i, k)`
and `C`-subtree in cell `(k, j)`, and every production `A → B C`, the tree
`A(B, C)` is in cell `(i, j)` of the completed table. -/
theorem C3_all_spans_and_splits_added (g : Grammar) (toks : List String)
    (i k j : Nat) (a : Symb) (b c : PTree)
    (hik : i < k) (hkj : k < j) (hj : j ≤ toks.length)
    (hb : b ∈ buildTable g toks i k) (hc : c ∈ buildTable g toks k j)
    (hp : Production.mk a [b.labelOf, c.labelOf] ∈ g.productions) :
    PTree.node a [b, c] ∈ buildTable g toks i j := by
  rw [buildTable_eq_cell g toks i j hj]
  rw [buildTable_eq_cell g toks i k (by omega)] at hb
  rw [buildTable_eq_cell g toks k j hj] at hc
  exact mem_cell_of_parts hik hkj hb hc hp

/-- Witness for C3: in scenario 1 the `S` node is added to cell `(0, 5)`
from `NP` in cell `(0, 2)` and `VP` in cell `(2, 5)`. -/
theorem C3_all_spans_and_splits_added_witness :
    PTree.node (Symb.nt "S") [npTree1, vpTree1] ∈ buildTable g1 toks1 0 5 :=
  C3_all_spans_and_splits_added g1 toks1 0 2 5 (Symb.nt "S") npTree1 vpTree1
    (by decide) (by decide) (by decide)
    (by rw [buildTable_eq_cell g1 toks1 0 2 (by decide)]; decide)
    (by rw [buildTable_eq_cell g1 toks1 2 5 (by decide)]; decide)
    (by decide)

/-- C4.  For a CNF grammar, the parser is complete and duplicate-free:
every tree that is sound, is rooted at the start symbol, and yields exactly
the input tokens is among the returned parses, and the returned list
contains no tree twice. -/
theorem C4_complete_and_duplicate_free (g : Grammar) (toks : List String)
    (hg : g.cnfCheck = true) :
    (∀ t, treeSoundB g t = true → t.labelOf = g.start → t.yield = toks →
      t ∈ parse_tokenized_sentence g toks) ∧
    (parse_tokenized_sentence g toks).Nodup := by
  rw [parse_eq_filter]
  constructor
  · intro t hsound hlabel hyield
    cases t with
    | leaf w =>
        exfalso
        rw [Grammar.cnfCheck, Bool.and_eq_true] at hg
        have hstart := hg.1
        rw [← hlabel] at hstart
        simp [PTree.labelOf, Symb.isNT] at hstart
    | node a cs =>
        have hlen : 0 + (PTree.node a cs).yield.length ≤ toks.length := by
          rw [hyield]
          omega
        have hslice : (toks.drop 0).take (PTree.node a cs).yield.length
            = (PTree.node a cs).yield := by
          rw [hyield]
          simp
        have hmem := complete_aux g toks hg (sizeOf (PTree.node a cs)) a cs le_rfl
          hsound 0 hlen hslice
        rw [hyield, Nat.zero_add] at hmem
        exact List.mem_filter.mpr ⟨hmem, by simp [hlabel]⟩
  · exact List.Nodup.filter _ (cell_nodup g toks toks.length 0 toks.length (by omega) le_rfl)

/-- Witness for C4: the scenario-1 grammar passes the CNF check and the
theorem yields that its parse list is duplicate-free. -/
theorem C4_complete_and_duplicate_free_witness :
    Grammar.cnfCheck g1 = true ∧ (parse_tokenized_sentence g1 toks1).Nodup :=
  ⟨by decide, (C4_complete_and_duplicate_free g1 toks1 (by decide)).2⟩

/-- C5.  Every tree returned by `parse_tokenized_sentence` yields exactly
the input token sequence. -/
theorem C5_yield_equals_input (g : Grammar) (toks : List String) (t : PTree)
    (ht : t ∈ parse_tokenized_sentence g toks) : t.yield = toks := by
  rw [parse_eq_filter] at ht
  have hmem := (List.mem_filter.mp ht).1
  have h := cell_yield g toks toks.length 0 toks.length (by omega) le_rfl t hmem
  simpa using h

/-- Witness for C5: the single scenario-1 parse tree yields the input. -/
theorem C5_yield_equals_input_witness :
    (PTree.node (Symb.nt "S") [npTree1, vpTree1]).yield = toks1 :=
  C5_yield_equals_input g1 toks1 (PTree.node (Symb.nt "S") [npTree1, vpTree1])
    (by rw [parse_eq_filter]; decide)

/-- C6.  If the token at position `p` is covered by no production (the
rhs-indexed lookup for it is empty), then its diagonal cell is empty, every
cell whose span contains position `p` is empty, and the parser returns the
empty list (no error). -/
theorem C6_unknown_word_empty_result (g : Grammar) (toks : List String) (p : Nat)
    (hp : p < toks.length)
    (hw : g.productionsWithRhsHead (Symb.tm (toks.getD p "")) = []) :
    calculateDiagonalCell g (toks.getD p "") = [] ∧
    (∀ i j, i ≤ p → p < j → j ≤ toks.length → buildTable g toks i j = []) ∧
    parse_tokenized_sentence g toks = [] := by
  have hdiag : calculateDiagonalCell g (toks.getD p "") = [] := by
    simp only [calculateDiagonalCell, hw]
    rfl
  have hcell : ∀ d i j, j - i ≤ d → i ≤ p → p < j → j ≤ toks.length →
      cell g toks i j = [] := by
    intro d
    induction d with
    | zero =>
        intro i j h1 h2 h3 _
        exfalso
        omega
    | succ d ih =>
        intro i j h1 h2 h3 h4
        rw [cell_eq]
        by_cases hone : i + 1 = j
        · rw [if_pos hone]
          have hip : i = p := by omega
          rw [hip]
          exact hdiag
        · rw [if_neg hone, List.flatMap_eq_nil_iff]
          intro k hk
          rw [List.mem_range'_1] at hk
          by_cases hkp : p < k
          · have h5 : cell g toks i k = [] := ih i k (by omega) h2 hkp (by omega)
            rw [combineCells, h5]
            rfl
          · have h5 : cell g toks k j = [] := ih k j (by omega) (by omega) h3 h4
            rw [combineCells, h5]
            simp
  refine ⟨hdiag, ?_, ?_⟩
  · intro i j h1 h2 h3
    rw [buildTable_eq_cell g toks i j h3]
    exact hcell (j - i) i j le_rfl h1 h2 h3
  · rw [parse_eq_filter]
    rw [hcell toks.length 0 toks.length (by omega) (by omega) (by omega) le_rfl]
    rfl

/-- Witness for C6: `"zzz"` has no production in the scenario-1 grammar, so
parsing `["the", "zzz"]` gives the empty diagonal cell and an empty result. -/
theorem C6_unknown_word_empty_result_witness :
    calculateDiagonalCell g1 (["the", "zzz"].getD 1 "") = [] ∧
    parse_tokenized_sentence g1 ["the", "zzz"] = [] := by
  have h := C6_unknown_word_empty_result g1 ["the", "zzz"] 1 (by decide) (by decide)
  exact ⟨h.1, h.2.2⟩

/-- C7.  On the empty token sequence the parser returns the empty list
without error: the table is `1 × 1`, no cell is filled, and the top-level
read is the untouched empty cell `(0, 0)`. -/
theorem C7_empty_input_empty_result (g : Grammar) :
    parse_tokenized_sentence g [] = [] := rfl

/-- C8.  The parser is deterministic: it is a pure function of the grammar
and the token sequence, so two runs on identical inputs return the same
trees in the same order. -/
theorem C8_deterministic (g : Grammar) (toks : List String) :
    parse_tokenized_sentence g toks = parse_tokenized_sentence g toks := rfl

/-- C9.  Concrete scenario 1: parsing `["the","dog","chased","the","cat"]`
with the grammar `g1` returns exactly one tree, and it is rooted at `S`. -/
theorem C9_scenario_one :
    (parse_tokenized_sentence g1 toks1).length = 1 ∧
    ∀ t ∈ parse_tokenized_sentence g1 toks1, t.labelOf = Symb.nt "S" := by
  rw [parse_eq_filter]
  decide

/-- C10.  The diagonal cell holds exactly one tree per distinct left-hand
side: even when the grammar repeats a unary production `a → w`, the cell
for `w` contains exactly one tree labeled `a` (left-hand sides are
deduplicated before the trees are built). -/
theorem C10_diag_one_tree_per_lhs (g : Grammar) (a : Symb) (w : String)
    (h : Production.mk a [Symb.tm w] ∈ g.productions) :
    (calculateDiagonalCell g w).countP (fun t => decide (t.labelOf = a)) = 1 := by
  simp only [calculateDiagonalCell, List.countP_map]
  have hmem : a ∈ dedupFirst ((g.productionsWithRhsHead (Symb.tm w)).map Production.lhs) := by
    rw [mem_dedupFirst, List.mem_map]
    refine ⟨Production.mk a [Symb.tm w], ?_, rfl⟩
    rw [Grammar.productionsWithRhsHead, List.mem_filter]
    exact ⟨h, by simp⟩
  have hnd := nodup_dedupFirst ((g.productionsWithRhsHead (Symb.tm w)).map Production.lhs)
  have hcount := countP_eq_one_of_nodup_mem _ a hnd hmem
  rw [← hcount]
  apply List.countP_congr
  intro x _
  simp [Function.comp, PTree.labelOf]

/-- Witness for C10: with the duplicated production `A → "w"` the diagonal
cell for `"w"` holds exactly one tree labeled `A`. -/
theorem C10_diag_one_tree_per_lhs_witness :
    (calculateDiagonalCell gDup "w").countP
      (fun t => decide (t.labelOf = Symb.nt "A")) = 1 :=
  C10_diag_one_tree_per_lhs gDup (Symb.nt "A") "w" (by decide)
